import Mathlib

/-!
Verification of the kokoro-tiny emotional wave-interference and
text-segmentation core against its specification.

The crate's library sources are not present in this tree (only the example
binaries under `examples/` are), so every core definition below is modelled
from the specification's own words; the examples fix the concrete field and
method names (`MemoryWave`, `emotion_type`, `decide_attention`,
`emotional_regulation`, `process_interference`, `grow`, ...).

Numeric `f64` values are idealised as rationals (exact field values) and the
transcendental envelope mathematics (`e^(-decay·t)`, `sin`) is carried out
over the reals.
-/

namespace Kokoro
/-- Modelled from the spec: the emotion variant carried by a memory wave,
`(EmotionKind, intensity ∈ [0,1])`; the example binaries show the Rust enum
`EmotionType` with payload intensities (`Curiosity(0.8)`, `Love(0.9)`, ...)
and a payload-free `Neutral`. -/
inductive EmotionType where
  | neutral : EmotionType
  | joy : ℚ → EmotionType
  | love : ℚ → EmotionType
  | curiosity : ℚ → EmotionType
  | confusion : ℚ → EmotionType
  deriving DecidableEq, Repr

/-- Modelled from the spec: the intensity component of an emotion; `Neutral`
carries no payload and counts as intensity 0. -/
def EmotionType.intensity : EmotionType → ℚ
  | .neutral => 0
  | .joy i => i
  | .love i => i
  | .curiosity i => i
  | .confusion i => i

/-- Modelled from the spec: one competing internal signal.  Field names follow
the example binaries (`src/examples/mem8_baby.rs`). -/
structure MemoryWave where
  amplitude : ℚ
  frequency : ℚ
  phase : ℚ
  decay_rate : ℚ
  emotion_type : EmotionType
  content : String
  deriving DecidableEq, Repr

/-- Modelled from the spec: process-wide mutable consciousness state, plus the
regulation gate's rolling admitted-amplitude accumulator ("as part of
ConsciousnessState or a companion accumulator"). -/
structure ConsciousnessState where
  awake : Bool
  consciousness_level : ℚ
  growth_stage : Nat
  admitted_amplitude : ℚ
  deriving DecidableEq, Repr

/-- Modelled from the spec: the fixed saturation threshold of the emotional
regulation gate (a configurable design parameter; the spec gives no numeric
value, this model fixes one). -/
def saturationThreshold : ℚ := 5

/-- Modelled from the spec: the low "babble" threshold under which a wave's
emotion intensity must fall to pass the gate while asleep (the spec's scenario
rejects intensity 0.9 and passes 0.05; this model fixes 0.1). -/
def babbleThreshold : ℚ := 1 / 10

/-- Modelled from the spec: a candidate wave's contribution to the admitted
amplitude accumulator, `amplitude · emotion.intensity`. -/
def contribution (w : MemoryWave) : ℚ :=
  w.amplitude * w.emotion_type.intensity

/-- Modelled from the spec: the Emotional Regulation Gate
(`emotional_regulation` in the example binaries; `admit(candidate, state)` in
the spec).  The call is suppressed (returns `false`, state untouched) when
admitting the contribution would push the accumulator above the saturation
threshold, and also — while asleep — for any wave whose emotion intensity is
not below the babble threshold; otherwise it returns `true` and adds the
contribution to the accumulator. -/
def emotionalRegulation (c : MemoryWave) (s : ConsciousnessState) :
    Bool × ConsciousnessState :=
  if (s.awake = true ∨ c.emotion_type.intensity < babbleThreshold) ∧
      s.admitted_amplitude + contribution c ≤ saturationThreshold then
    (true, { s with admitted_amplitude := s.admitted_amplitude + contribution c })
  else
    (false, s)

/-- C4 counterexample input: while asleep, an expressive (intensity 0.9) wave
whose contribution would not exceed the saturation threshold. -/
def c4Wave : MemoryWave :=
  ⟨1, 440, 0, 1/10, EmotionType.joy (9/10), "Want to play!"⟩

/-- C4 counterexample state: asleep, empty accumulator. -/
def c4State : ConsciousnessState := ⟨false, 0, 0, 0⟩

/-- C5 counterexample input: low-intensity (0.05) wave. -/
def c5Wave : MemoryWave :=
  ⟨1, 440, 0, 0, EmotionType.love (1/20), "Mama!"⟩

/-- C5 counterexample state: asleep with the accumulator already at the
saturation threshold. -/
def c5State : ConsciousnessState := ⟨false, 0, 0, 5⟩

/-- Modelled from the spec: the kind of a sensory event, from the example
binaries' `SignalType` enum. -/
inductive SignalType where
  | voice : SignalType
  | music : SignalType
  | environmental : SignalType
  | unknown : SignalType
  deriving DecidableEq, Repr

/-- Modelled from the spec: a sensory candidate for attention
(`src/examples/mem8_baby.rs` fixes the field names). -/
structure SalienceEvent where
  timestamp : Nat
  jitter_score : ℚ
  harmonic_score : ℚ
  salience_score : ℚ
  signal_type : SignalType
  deriving DecidableEq, Repr

/-- Modelled from the spec: arbitration weight on `harmonic_score`. -/
def weightHarmonic : ℚ := 3 / 10

/-- Modelled from the spec: arbitration weight on temporal stability,
`1 - jitter_score`. -/
def weightStability : ℚ := 3 / 10

/-- Modelled from the spec: arbitration weight on `salience_score`. -/
def weightSalience : ℚ := 2 / 5

/-- Modelled from the spec: the composite attention score
`w1·harmonic + w2·(1 − jitter) + w3·salience`. -/
def compositeScore (e : SalienceEvent) : ℚ :=
  weightHarmonic * e.harmonic_score + weightStability * (1 - e.jitter_score) +
    weightSalience * e.salience_score

/-- Modelled from the spec: left fold selecting the highest-scoring event,
ties broken by the earliest timestamp, and among equal-score equal-timestamp
events by the earliest position in the sequence. -/
def pickBest : SalienceEvent → List SalienceEvent → SalienceEvent
  | best, [] => best
  | best, e :: rest =>
    if compositeScore best < compositeScore e ∨
        (compositeScore e = compositeScore best ∧ e.timestamp < best.timestamp) then
      pickBest e rest
    else
      pickBest best rest

/-- `a` scores strictly higher than `b`, or ties in score with a timestamp no
later than b's. -/
def atLeastAsGood (a b : SalienceEvent) : Prop :=
  compositeScore b < compositeScore a ∨
    (compositeScore b = compositeScore a ∧ a.timestamp ≤ b.timestamp)

/-- Modelled from the spec: the arbitrator's pseudorandom source — an
explicitly seeded 32-bit linear congruential step (the spec only requires an
injected, optionally-seeded source). -/
def lcgNext (seed : Nat) : Nat := (1664525 * seed + 1013904223) % 4294967296

/-- Modelled from the spec: whether a pseudorandom draw selects the
deterministic highest-score branch; 7 of every 10 equally likely residues do,
realising the fixed 0.7 autonomy ratio. -/
def scoredBranch (draw : Nat) : Bool := draw % 10 < 7

/-- Modelled from the spec: the Attention Arbitrator's
`decide(events, rng_seed)` (`decide_attention` in the example binaries).
Returns `none` on no events; otherwise takes the autonomy draw and either
returns the highest-scoring event (ties by earliest timestamp) or a uniformly
drawn event of the input; an absent seed stands for ambient process entropy,
modelled as seed 0. -/
def uniformPick (e : SalienceEvent) (rest : List SalienceEvent)
    (draw : Nat) : SalienceEvent :=
  (e :: rest).get
    ⟨lcgNext draw % (e :: rest).length, Nat.mod_lt _ (Nat.succ_pos rest.length)⟩

def decideAttention (events : List SalienceEvent) (rngSeed : Option Nat) :
    Option SalienceEvent :=
  match events with
  | [] => none
  | e :: rest =>
    let draw := lcgNext (rngSeed.getD 0)
    if scoredBranch draw then
      some (pickBest e rest)
    else
      some (uniformPick e rest draw)

/-- Modelled from the spec: the interference engine's error kind. -/
inductive WaveError where
  | invalidWave : WaveError
  deriving DecidableEq, Repr

/-- Modelled from the spec: a wave is invalid when `frequency ≤ 0` or
`amplitude < 0`. -/
def isInvalid (w : MemoryWave) : Prop :=
  w.frequency ≤ 0 ∨ w.amplitude < 0

/-- Modelled from the spec: a wave's instantaneous envelope value at time `t`,
`amplitude · e^(-decay_rate · t)`. -/
noncomputable def envelope (w : MemoryWave) (t : ℝ) : ℝ :=
  (w.amplitude : ℝ) * Real.exp (-(w.decay_rate : ℝ) * t)

/-- Modelled from the spec: the dominance-selection metric
`envelope(t) · emotion.intensity`. -/
noncomputable def dominanceMetric (w : MemoryWave) (t : ℝ) : ℝ :=
  envelope w t * (w.emotion_type.intensity : ℝ)

/-- Modelled from the spec: the fixed tie epsilon (1e-9) of the dominance
rule. -/
noncomputable def epsilonTie : ℝ := 1 / 1000000000

open scoped Classical in
/-- Modelled from the spec: left fold selecting the dominant wave — a later
wave displaces the current best only when its metric exceeds the best's by
more than the tie epsilon, so ties within epsilon go to the earliest
position. -/
noncomputable def pickDominant (t : ℝ) : MemoryWave → List MemoryWave → MemoryWave
  | best, [] => best
  | best, w :: rest =>
    if dominanceMetric best t + epsilonTie < dominanceMetric w t then
      pickDominant t w rest
    else
      pickDominant t best rest

/-- Modelled from the spec: the dominant wave of an ordered sequence (`none`
on empty input, giving the neutral/empty result of §7). -/
noncomputable def dominantOf (waves : List MemoryWave) (t : ℝ) : Option MemoryWave :=
  match waves with
  | [] => none
  | w :: rest => some (pickDominant t w rest)

/-- Modelled from the spec: one wave's time-domain signal
`amplitude · e^(-decay_rate·t) · sin(2π·frequency·t + phase)`. -/
noncomputable def waveSignal (w : MemoryWave) (t : ℝ) : ℝ :=
  (w.amplitude : ℝ) * Real.exp (-(w.decay_rate : ℝ) * t) *
    Real.sin (2 * Real.pi * (w.frequency : ℝ) * t + (w.phase : ℝ))

/-- Modelled from the spec: the combined envelope, the pointwise algebraic sum
of each wave's time-domain signal. -/
noncomputable def combinedSignal (waves : List MemoryWave) (t : ℝ) : ℝ :=
  (waves.map (fun w => waveSignal w t)).sum

/-- Modelled from the spec: the summed waveform sampled at a caller-specified
sample count and rate. -/
noncomputable def envelopeSamples (waves : List MemoryWave) (sampleCount : Nat)
    (sampleRate : ℚ) : List ℝ :=
  (List.range sampleCount).map
    (fun i => combinedSignal waves ((i : ℝ) / (sampleRate : ℝ)))

/-- Modelled from the spec: the root-mean-square of the summed samples. -/
noncomputable def combinedEnergy (samples : List ℝ) : ℝ :=
  Real.sqrt ((samples.map (fun x => x ^ 2)).sum / (samples.length : ℝ))

/-- Modelled from the spec: the output of superposing a set of waves. -/
structure InterferenceResult where
  dominant : Option MemoryWave
  envelope_samples : List ℝ
  combined_energy : ℝ

open scoped Classical in
/-- Modelled from the spec: the Memory Wave Interference Engine's
`interfere(waves, at_time)` (`process_interference` in the example binaries).
Rejects with `InvalidWave` before any computation if any wave is invalid;
otherwise builds the dominant wave, the sampled combined envelope (over the
caller-specified sample count and rate) and its RMS energy.  Pure: no state is
read or written. -/
noncomputable def interfere (waves : List MemoryWave) (at_time : ℝ)
    (sampleCount : Nat) (sampleRate : ℚ) : Except WaveError InterferenceResult :=
  if ∃ w ∈ waves, isInvalid w then
    Except.error WaveError.invalidWave
  else
    let samples := envelopeSamples waves sampleCount sampleRate
    Except.ok ⟨dominantOf waves at_time, samples, combinedEnergy samples⟩

/-- Modelled from the spec: the engine's lifecycle and computation surface, as
operations on the consciousness state. -/
inductive EngineOp where
  | wakeOp : EngineOp
  | sleepOp : EngineOp
  | growOp : EngineOp
  | regulateOp : MemoryWave → EngineOp
  | interfereOp : List MemoryWave → ℝ → Nat → ℚ → EngineOp
  | decideOp : List SalienceEvent → Option Nat → EngineOp
  | synthOp : String → Nat → EngineOp

/-- Modelled from the spec: `wake()` — sets awake, consciousness level high. -/
def wakeUp (s : ConsciousnessState) : ConsciousnessState :=
  { s with awake := true, consciousness_level := 1 }

/-- Modelled from the spec: `sleep()` — clears the awake flag (the level then
decays toward 0 over time). -/
def fallAsleep (s : ConsciousnessState) : ConsciousnessState :=
  { s with awake := false }

/-- Modelled from the spec: `grow()` — increments the growth stage,
irreversible within a session. -/
def grow (s : ConsciousnessState) : ConsciousnessState :=
  { s with growth_stage := s.growth_stage + 1 }

/-- Modelled from the spec: the state effect of each engine operation.
Interference, arbitration and synthesis are pure computations; only the
lifecycle calls and the regulation gate touch the state. -/
def applyEngineOp : EngineOp → ConsciousnessState → ConsciousnessState
  | .wakeOp, s => wakeUp s
  | .sleepOp, s => fallAsleep s
  | .growOp, s => grow s
  | .regulateOp c, s => (emotionalRegulation c s).2
  | .interfereOp _ _ _ _, s => s
  | .decideOp _ _, s => s
  | .synthOp _ _, s => s

/-- Modelled from the spec: a session — a sequence of engine operations
applied in order. -/
def runOps (ops : List EngineOp) (s : ConsciousnessState) : ConsciousnessState :=
  ops.foldl (fun st op => applyEngineOp op st) s

/-- C1: the claim fails as stated.  Two waves equal apart from amplitude
(1 versus 1 + 1e-10, intensity 1): at `t = 0` the second wave's dominance
metric strictly exceeds the first's, but the difference is within the tie
epsilon, so `interfere` returns the earlier, lower-amplitude wave as
dominant — the higher-amplitude wave is not dominant, and the selected wave
does not maximise the metric. -/
def c1Low : MemoryWave := ⟨1, 440, 0, 0, EmotionType.love 1, "low"⟩

/-- C1 counterexample companion wave: amplitude 1 + 1e-10, all else equal. -/
def c1High : MemoryWave :=
  ⟨1 + 1/10000000000, 440, 0, 0, EmotionType.love 1, "high"⟩

/-- C9 counterexample wave: amplitude 0, positive decay rate — its envelope is
identically 0, hence not strictly decreasing. -/
def c9Wave : MemoryWave := ⟨0, 440, 0, 1, EmotionType.neutral, "silent"⟩

/-- Modelled from the spec: the fixed short-text character threshold under
which segmentation is bypassed entirely. -/
def shortTextThreshold : Nat := 50

/-- Modelled from the spec: sentence-ending punctuation. -/
def isSentenceBoundary (c : Char) : Bool :=
  c = '.' || c = '!' || c = '?'

/-- Modelled from the spec: split a character list into sentences, cutting
right after each boundary character so that the sentences concatenate back to
the input; `acc` holds the current sentence reversed. -/
def splitSentencesAux (acc : List Char) : List Char → List (List Char)
  | [] => if acc.isEmpty then [] else [acc.reverse]
  | c :: rest =>
    if isSentenceBoundary c then
      (acc.reverse ++ [c]) :: splitSentencesAux [] rest
    else
      splitSentencesAux (c :: acc) rest

/-- Modelled from the spec: the sentences of a normalized text. -/
def splitSentences (cs : List Char) : List (List Char) :=
  splitSentencesAux [] cs

/-- Modelled from the spec: token counting over normalized text — a token is
a maximal run of non-space characters; the flag records whether the previous
character was inside a word. -/
def countTokensAux : Bool → List Char → Nat
  | _, [] => 0
  | inWord, c :: rest =>
    if c = ' ' then countTokensAux false rest
    else if inWord then countTokensAux true rest
    else 1 + countTokensAux true rest

/-- Modelled from the spec: the token count of a character span. -/
def countTokens (cs : List Char) : Nat := countTokensAux false cs

/-- Modelled from the spec: take from `cs` a maximal prefix containing at most
`n` tokens, cutting only at token boundaries; returns the prefix and the rest.
The flag records whether the previous character was inside a word. -/
def takeTokensAux : Nat → Bool → List Char → List Char × List Char
  | _, _, [] => ([], [])
  | n, inWord, c :: rest =>
    if c = ' ' then
      (c :: (takeTokensAux n false rest).1, (takeTokensAux n false rest).2)
    else if inWord then
      (c :: (takeTokensAux n true rest).1, (takeTokensAux n true rest).2)
    else
      match n with
      | 0 => ([], c :: rest)
      | Nat.succ m =>
        (c :: (takeTokensAux m true rest).1, (takeTokensAux m true rest).2)

/-- Modelled from the spec: hard-split an over-long sentence at the token
boundary nearest the limit, repeatedly; `fuel` bounds the recursion (each
round consumes at least one character); when no progress is possible
(`maxTokens = 0`) the remainder is emitted whole. -/
def hardSplitAux (maxTokens : Nat) : Nat → List Char → List (List Char)
  | _, [] => []
  | 0, c :: rest => [c :: rest]
  | Nat.succ fuel, c :: rest =>
    if (takeTokensAux maxTokens false (c :: rest)).1.isEmpty then [c :: rest]
    else (takeTokensAux maxTokens false (c :: rest)).1 ::
      hardSplitAux maxTokens fuel (takeTokensAux maxTokens false (c :: rest)).2

/-- Modelled from the spec: hard-split one over-long sentence into pieces of
at most `maxTokens` tokens each. -/
def hardSplit (maxTokens : Nat) (cs : List Char) : List (List Char) :=
  hardSplitAux maxTokens cs.length cs

/-- Modelled from the spec: the discrete voice-style buckets. -/
inductive VoiceStyle where
  | short : VoiceStyle
  | medium : VoiceStyle
  | long : VoiceStyle
  deriving DecidableEq, Repr

/-- Modelled from the spec: choose a style bucket from a chunk's own token
count (the bucket limits are illustrative design parameters). -/
def styleFor (tokens : Nat) : VoiceStyle :=
  if tokens ≤ 10 then VoiceStyle.short
  else if tokens ≤ 30 then VoiceStyle.medium
  else VoiceStyle.long

/-- Modelled from the spec: an ordered text fragment with its token count,
style and sequence index. -/
structure Chunk where
  text : List Char
  token_count : Nat
  style : VoiceStyle
  sequence_index : Nat
  deriving DecidableEq, Repr

/-- Modelled from the spec: build the chunk for one piece. -/
def mkChunk (piece : List Char) (idx : Nat) : Chunk :=
  ⟨piece, countTokens piece, styleFor (countTokens piece), idx⟩

/-- Modelled from the spec: number the pieces with consecutive sequence
indices starting at `i`. -/
def mkChunksAux : Nat → List (List Char) → List Chunk
  | _, [] => []
  | i, p :: rest => mkChunk p i :: mkChunksAux (i + 1) rest

/-- Modelled from the spec: the ordered chunk list of a piece list. -/
def mkChunks (pieces : List (List Char)) : List Chunk :=
  mkChunksAux 0 pieces

/-- Modelled from the spec: `segment(text, max_tokens)` — below the short-text
character threshold the whole text is one chunk (bypass); if the whole text
fits the token budget it is one chunk; otherwise split at sentence boundaries
and hard-split any sentence still exceeding the budget. -/
def segment (text : List Char) (maxTokens : Nat) : List Chunk :=
  if text.length < shortTextThreshold then
    [mkChunk text 0]
  else if countTokens text ≤ maxTokens then
    [mkChunk text 0]
  else
    mkChunks (((splitSentences text).map (fun s =>
      if maxTokens < countTokens s then hardSplit maxTokens s else [s])).flatten)

/-- A suppressed gate call leaves the state untouched. -/
theorem emotionalRegulation_false_state (c : MemoryWave)
    (s : ConsciousnessState) (h : (emotionalRegulation c s).1 = false) :
    (emotionalRegulation c s).2 = s := by
  unfold emotionalRegulation at *
  split at h
  · simp at h
  · next hneg =>
      simp [hneg]

/-- C4: the claim "otherwise admit returns true and the accumulator is
increased" fails: this candidate's contribution (0.9) would not push the
accumulator (0) above the threshold, yet the gate returns `false`, because the
state is asleep and the wave's intensity is not below the babble threshold. -/
theorem C4_counterexample :
    c4State.admitted_amplitude + contribution c4Wave ≤ saturationThreshold ∧
    (emotionalRegulation c4Wave c4State).1 = false := by
  constructor
  · norm_num [c4State, c4Wave, contribution, EmotionType.intensity,
      saturationThreshold]
  · have hc : ¬ ((c4State.awake = true ∨
        c4Wave.emotion_type.intensity < babbleThreshold) ∧
        c4State.admitted_amplitude + contribution c4Wave ≤ saturationThreshold) := by
      rintro ⟨h1 | h1, -⟩
      · simp [c4State] at h1
      · norm_num [c4Wave, babbleThreshold, EmotionType.intensity] at h1
    unfold emotionalRegulation
    rw [if_neg hc]

/-- C4 (amended): if admitting the candidate's contribution would push the
accumulator above the saturation threshold, the gate returns `false` and
leaves the state (accumulator included) unchanged; otherwise, provided the
sleep gate also passes (awake, or intensity below the babble threshold), it
returns `true` and the accumulator grows by the contribution; and every
suppressed call leaves the state unchanged. -/
theorem C4_saturation_amended :
    (∀ c s, saturationThreshold < s.admitted_amplitude + contribution c →
      emotionalRegulation c s = (false, s)) ∧
    (∀ c s, s.admitted_amplitude + contribution c ≤ saturationThreshold →
      (s.awake = true ∨ c.emotion_type.intensity < babbleThreshold) →
      emotionalRegulation c s =
        (true, { s with
          admitted_amplitude := s.admitted_amplitude + contribution c })) ∧
    (∀ c s, (emotionalRegulation c s).1 = false →
      (emotionalRegulation c s).2 = s) := by
  refine ⟨fun c s h => ?_, fun c s h1 h2 => ?_,
    fun c s h => emotionalRegulation_false_state c s h⟩
  · have hn : ¬ (s.admitted_amplitude + contribution c ≤ saturationThreshold) :=
      not_le.mpr h
    unfold emotionalRegulation
    rw [if_neg]
    exact fun hc => hn hc.2
  · unfold emotionalRegulation
    rw [if_pos ⟨h2, h1⟩]

/-- C5: the claim "while asleep, admit returns true iff intensity is below the
babble threshold" fails: this wave's intensity (0.05) is below the babble
threshold, the state is asleep, yet the gate returns `false`, because its
contribution would push the saturated accumulator over the threshold. -/
theorem C5_counterexample :
    c5State.awake = false ∧
    c5Wave.emotion_type.intensity < babbleThreshold ∧
    (emotionalRegulation c5Wave c5State).1 = false := by
  refine ⟨rfl, ?_, ?_⟩
  · norm_num [c5Wave, EmotionType.intensity, babbleThreshold]
  · have hc : ¬ ((c5State.awake = true ∨
        c5Wave.emotion_type.intensity < babbleThreshold) ∧
        c5State.admitted_amplitude + contribution c5Wave ≤ saturationThreshold) := by
      rintro ⟨-, h2⟩
      norm_num [c5State, c5Wave, contribution, EmotionType.intensity,
        saturationThreshold] at h2
    unfold emotionalRegulation
    rw [if_neg hc]

/-- C5 (amended): while asleep, the gate returns `true` iff the candidate's
emotion intensity is below the babble threshold AND admitting its contribution
would not push the accumulator above the saturation threshold; in particular,
from a non-saturated sleeping state an intensity-0.9 wave is rejected and an
intensity-0.05 wave is admitted. -/
theorem C5_sleep_gate_amended (c : MemoryWave) (s : ConsciousnessState)
    (h : s.awake = false) :
    (emotionalRegulation c s).1 = true ↔
      (c.emotion_type.intensity < babbleThreshold ∧
       s.admitted_amplitude + contribution c ≤ saturationThreshold) := by
  unfold emotionalRegulation
  split
  · next hc =>
      rcases hc with ⟨hgate, hsat⟩
      rcases hgate with hg | hg
      · rw [h] at hg
        exact absurd hg (by simp)
      · simp [hg, hsat]
  · next hc =>
      simp only [show ((false, s) : Bool × ConsciousnessState).1 = false from rfl]
      constructor
      · intro hff
        exact absurd hff (by simp)
      · intro hb
        exact absurd ⟨Or.inr hb.1, hb.2⟩ hc

/-- C5 witness: from a fresh sleeping state, an intensity-0.05 wave is
admitted (via the amended theorem) and an intensity-0.9 wave is rejected. -/
theorem C5_sleep_gate_amended_witness :
    (emotionalRegulation ⟨1, 440, 0, 0, EmotionType.joy (1/20), "hi"⟩
      ⟨false, 0, 0, 0⟩).1 = true ∧
    ¬ ((⟨1, 440, 0, 0, EmotionType.joy (9/10), "hi"⟩ :
        MemoryWave).emotion_type.intensity < babbleThreshold) := by
  constructor
  · exact (C5_sleep_gate_amended ⟨1, 440, 0, 0, EmotionType.joy (1/20), "hi"⟩
      ⟨false, 0, 0, 0⟩ rfl).mpr
      (by norm_num [EmotionType.intensity, babbleThreshold, contribution,
        saturationThreshold])
  · norm_num [EmotionType.intensity, babbleThreshold]

theorem atLeastAsGood_refl (a : SalienceEvent) : atLeastAsGood a a :=
  Or.inr ⟨rfl, le_refl _⟩

theorem atLeastAsGood_trans {a b c : SalienceEvent}
    (hab : atLeastAsGood a b) (hbc : atLeastAsGood b c) : atLeastAsGood a c := by
  rcases hab with h1 | ⟨h1, t1⟩ <;> rcases hbc with h2 | ⟨h2, t2⟩
  · exact Or.inl (lt_trans h2 h1)
  · exact Or.inl (by rw [h2]; exact h1)
  · exact Or.inl (by rw [← h1]; exact h2)
  · exact Or.inr ⟨h2.trans h1, le_trans t1 t2⟩

theorem pickBest_cons (best e : SalienceEvent) (rest : List SalienceEvent) :
    pickBest best (e :: rest) =
      if compositeScore best < compositeScore e ∨
          (compositeScore e = compositeScore best ∧
            e.timestamp < best.timestamp) then
        pickBest e rest
      else
        pickBest best rest := rfl

theorem pickBest_mem : ∀ (l : List SalienceEvent) (best : SalienceEvent),
    pickBest best l ∈ best :: l := by
  intro l
  induction l with
  | nil => intro best; simp [pickBest]
  | cons e rest ih =>
      intro best
      rw [pickBest_cons]
      by_cases hcond : compositeScore best < compositeScore e ∨
          (compositeScore e = compositeScore best ∧
            e.timestamp < best.timestamp)
      · rw [if_pos hcond]
        exact List.mem_cons_of_mem _ (ih e)
      · rw [if_neg hcond]
        rcases List.mem_cons.mp (ih best) with h | h
        · rw [h]; exact List.mem_cons_self _ _
        · exact List.mem_cons_of_mem _ (List.mem_cons_of_mem _ h)

theorem pickBest_best : ∀ (l : List SalienceEvent) (best : SalienceEvent),
    ∀ x ∈ best :: l, atLeastAsGood (pickBest best l) x := by
  intro l
  induction l with
  | nil =>
      intro best x hx
      rcases List.mem_cons.mp hx with h | h
      · subst h; exact atLeastAsGood_refl _
      · cases h
  | cons e rest ih =>
      intro best x hx
      rw [pickBest_cons]
      by_cases hcond : compositeScore best < compositeScore e ∨
          (compositeScore e = compositeScore best ∧
            e.timestamp < best.timestamp)
      · rw [if_pos hcond]
        have hbase : atLeastAsGood e best := by
          rcases hcond with h | ⟨h, ht⟩
          · exact Or.inl h
          · exact Or.inr ⟨h.symm, le_of_lt ht⟩
        rcases List.mem_cons.mp hx with h | h
        · rw [h]
          exact atLeastAsGood_trans (ih e e (List.mem_cons_self _ _)) hbase
        · exact ih e x h
      · rw [if_neg hcond]
        have hs1 : ¬ compositeScore best < compositeScore e :=
          fun hlt => hcond (Or.inl hlt)
        have hs2 : ¬ (compositeScore e = compositeScore best ∧
            e.timestamp < best.timestamp) :=
          fun heq => hcond (Or.inr heq)
        have hbase : atLeastAsGood best e := by
          rcases lt_or_eq_of_le (not_lt.mp hs1) with h | h
          · exact Or.inl h
          · exact Or.inr ⟨h, not_lt.mp fun ht => hs2 ⟨h, ht⟩⟩
        rcases List.mem_cons.mp hx with h | h
        · rw [h]
          exact ih best best (List.mem_cons_self _ _)
        · rcases List.mem_cons.mp h with h2 | h2
          · rw [h2]
            exact atLeastAsGood_trans
              (ih best best (List.mem_cons_self _ _)) hbase
          · exact ih best x (List.mem_cons_of_mem _ h2)

theorem uniformPick_mem (e : SalienceEvent) (rest : List SalienceEvent)
    (draw : Nat) : uniformPick e rest draw ∈ e :: rest :=
  List.get_mem _ _ _

theorem decideAttention_cons (e : SalienceEvent) (rest : List SalienceEvent)
    (rngSeed : Option Nat) :
    decideAttention (e :: rest) rngSeed =
      if scoredBranch (lcgNext (rngSeed.getD 0)) then
        some (pickBest e rest)
      else
        some (uniformPick e rest (lcgNext (rngSeed.getD 0))) := rfl

theorem decideAttention_some (e : SalienceEvent) (rest : List SalienceEvent)
    (seed : Nat) :
    decideAttention (e :: rest) (some seed) =
      if scoredBranch (lcgNext seed) then
        some (pickBest e rest)
      else
        some (uniformPick e rest (lcgNext seed)) := rfl

/-- C6: `decide(events, rng_seed)` returns `none` iff the event sequence is
empty, and on a non-empty sequence returns some event drawn from the input
set. -/
theorem C6_decide_empty :
    ∀ (events : List SalienceEvent) (seed : Option Nat),
      (decideAttention events seed = none ↔ events = []) ∧
      (events ≠ [] → ∃ e ∈ events, decideAttention events seed = some e) := by
  intro events seed
  cases events with
  | nil => exact ⟨by constructor <;> intro <;> rfl, fun h => absurd rfl h⟩
  | cons e rest =>
      rw [decideAttention_cons]
      by_cases hb : scoredBranch (lcgNext (seed.getD 0)) = true
      · rw [if_pos hb]
        refine ⟨⟨fun h => (nomatch h), fun h => (nomatch h)⟩, fun _ => ?_⟩
        exact ⟨pickBest e rest, pickBest_mem rest e, rfl⟩
      · rw [if_neg hb]
        refine ⟨⟨fun h => (nomatch h), fun h => (nomatch h)⟩, fun _ => ?_⟩
        exact ⟨_, uniformPick_mem e rest _, rfl⟩

/-- C7: the arbitrator's composite-score weights are fixed and sum to 1; when
the autonomy draw selects the deterministic branch the arbitrator returns the
event maximising the composite score with ties broken by earliest timestamp;
otherwise it returns an event of the input chosen by the pseudorandom draw
alone; exactly 7 of the 10 equally likely draw residues select the
deterministic branch; and the result is reproducible: identical events and
identical seeds give identical results. -/
theorem C7_autonomy_policy :
    (weightHarmonic + weightStability + weightSalience = 1) ∧
    (∀ (e : SalienceEvent) (rest : List SalienceEvent) (seed : Nat),
      scoredBranch (lcgNext seed) = true →
        decideAttention (e :: rest) (some seed) = some (pickBest e rest) ∧
        (∀ x ∈ e :: rest,
          compositeScore x ≤ compositeScore (pickBest e rest)) ∧
        (∀ x ∈ e :: rest,
          compositeScore x = compositeScore (pickBest e rest) →
            (pickBest e rest).timestamp ≤ x.timestamp)) ∧
    (∀ (e : SalienceEvent) (rest : List SalienceEvent) (seed : Nat),
      scoredBranch (lcgNext seed) = false →
        ∃ x ∈ e :: rest, decideAttention (e :: rest) (some seed) = some x) ∧
    (((Finset.range 10).filter (fun d => scoredBranch d = true)).card = 7) ∧
    (∀ (es1 es2 : List SalienceEvent) (s1 s2 : Option Nat),
      es1 = es2 → s1 = s2 → decideAttention es1 s1 = decideAttention es2 s2) := by
  refine ⟨by norm_num [weightHarmonic, weightStability, weightSalience],
    fun e rest seed h => ?_, fun e rest seed h => ?_, ?_,
    fun es1 es2 s1 s2 h1 h2 => by rw [h1, h2]⟩
  · refine ⟨by rw [decideAttention_some, if_pos h], fun x hx => ?_,
      fun x hx hs => ?_⟩
    · rcases pickBest_best rest e x hx with hlt | ⟨heq, -⟩
      · exact le_of_lt hlt
      · exact le_of_eq heq
    · rcases pickBest_best rest e x hx with hlt | ⟨-, ht⟩
      · exact absurd hs (ne_of_lt hlt)
      · exact ht
  · refine ⟨uniformPick e rest (lcgNext seed), uniformPick_mem e rest _, ?_⟩
    rw [decideAttention_some, if_neg (by rw [h]; exact fun hc => by cases hc)]
  · decide

theorem epsilonTie_nonneg : (0 : ℝ) ≤ epsilonTie := by
  norm_num [epsilonTie]

theorem pickDominant_cons (t : ℝ) (best w : MemoryWave)
    (rest : List MemoryWave) :
    pickDominant t best (w :: rest) =
      if dominanceMetric best t + epsilonTie < dominanceMetric w t then
        pickDominant t w rest
      else
        pickDominant t best rest := rfl

theorem pickDominant_mem : ∀ (l : List MemoryWave) (best : MemoryWave) (t : ℝ),
    pickDominant t best l ∈ best :: l := by
  intro l
  induction l with
  | nil => intro best t; simp [pickDominant]
  | cons w rest ih =>
      intro best t
      rw [pickDominant_cons]
      by_cases hcond : dominanceMetric best t + epsilonTie < dominanceMetric w t
      · rw [if_pos hcond]
        exact List.mem_cons_of_mem _ (ih w t)
      · rw [if_neg hcond]
        rcases List.mem_cons.mp (ih best t) with h | h
        · rw [h]; exact List.mem_cons_self _ _
        · exact List.mem_cons_of_mem _ (List.mem_cons_of_mem _ h)

theorem pickDominant_le : ∀ (l : List MemoryWave) (best : MemoryWave) (t : ℝ),
    dominanceMetric best t ≤ dominanceMetric (pickDominant t best l) t := by
  intro l
  induction l with
  | nil => intro best t; exact le_refl _
  | cons w rest ih =>
      intro best t
      rw [pickDominant_cons]
      by_cases hcond : dominanceMetric best t + epsilonTie < dominanceMetric w t
      · rw [if_pos hcond]
        have h1 : dominanceMetric best t ≤ dominanceMetric w t :=
          le_of_lt (lt_of_le_of_lt (le_add_of_nonneg_right epsilonTie_nonneg) hcond)
        exact le_trans h1 (ih w t)
      · rw [if_neg hcond]
        exact ih best t

theorem pickDominant_max : ∀ (l : List MemoryWave) (best : MemoryWave) (t : ℝ),
    ∀ u ∈ best :: l,
      dominanceMetric u t ≤ dominanceMetric (pickDominant t best l) t + epsilonTie := by
  intro l
  induction l with
  | nil =>
      intro best t u hu
      rcases List.mem_cons.mp hu with h | h
      · rw [h]
        exact le_add_of_nonneg_right epsilonTie_nonneg
      · cases h
  | cons w rest ih =>
      intro best t u hu
      rw [pickDominant_cons]
      by_cases hcond : dominanceMetric best t + epsilonTie < dominanceMetric w t
      · rw [if_pos hcond]
        rcases List.mem_cons.mp hu with h | h
        · rw [h]
          have h1 : dominanceMetric best t ≤ dominanceMetric w t :=
            le_of_lt (lt_of_le_of_lt (le_add_of_nonneg_right epsilonTie_nonneg) hcond)
          have h2 : dominanceMetric w t ≤ dominanceMetric (pickDominant t w rest) t :=
            pickDominant_le rest w t
          exact le_trans (le_trans h1 h2) (le_add_of_nonneg_right epsilonTie_nonneg)
        · exact ih w t u h
      · rw [if_neg hcond]
        rcases List.mem_cons.mp hu with h | h
        · exact ih best t u (h ▸ List.mem_cons_self _ _)
        · rcases List.mem_cons.mp h with h2 | h2
          · rw [h2]
            have h3 : dominanceMetric w t ≤ dominanceMetric best t + epsilonTie :=
              le_of_not_lt hcond
            have h4 : dominanceMetric best t ≤
                dominanceMetric (pickDominant t best rest) t :=
              pickDominant_le rest best t
            exact le_trans h3 (add_le_add_right h4 _)
          · exact ih best t u (List.mem_cons_of_mem _ h2)

theorem C1_counterexample :
    c1Low.amplitude < c1High.amplitude ∧
    dominanceMetric c1Low 0 < dominanceMetric c1High 0 ∧
    ∃ res, interfere [c1Low, c1High] 0 8 1 = Except.ok res ∧
      res.dominant = some c1Low := by
  have hm : ∀ a : ℚ, ∀ s : String,
      dominanceMetric ⟨a, 440, 0, 0, EmotionType.love 1, s⟩ 0 = (a : ℝ) := by
    intro a s
    simp [dominanceMetric, envelope, EmotionType.intensity, Real.exp_zero]
  refine ⟨by norm_num [c1Low, c1High], ?_, ?_⟩
  · rw [show c1Low = ⟨1, 440, 0, 0, EmotionType.love 1, "low"⟩ from rfl,
      show c1High = ⟨1 + 1/10000000000, 440, 0, 0, EmotionType.love 1, "high"⟩ from rfl,
      hm, hm]
    norm_num
  · have hval : ¬ ∃ w ∈ [c1Low, c1High], isInvalid w := by
      rintro ⟨w, hw, hinv⟩
      rcases List.mem_cons.mp hw with h | h
      · rw [h] at hinv
        rcases hinv with h2 | h2 <;> norm_num [c1Low, isInvalid] at h2
      · rcases List.mem_cons.mp h with h3 | h3
        · rw [h3] at hinv
          rcases hinv with h2 | h2 <;> norm_num [c1High, isInvalid] at h2
        · cases h3
    refine ⟨_, by rw [interfere, if_neg hval], ?_⟩
    show dominantOf [c1Low, c1High] 0 = some c1Low
    rw [show dominantOf [c1Low, c1High] 0 = some (pickDominant 0 c1Low [c1High]) from rfl,
      pickDominant_cons]
    rw [if_neg]
    · rfl
    · rw [show c1Low = ⟨1, 440, 0, 0, EmotionType.love 1, "low"⟩ from rfl,
        show c1High = ⟨1 + 1/10000000000, 440, 0, 0, EmotionType.love 1, "high"⟩ from rfl,
        hm, hm]
      norm_num [epsilonTie]

/-- C1 (amended): for non-empty valid input, `interfere` succeeds and its
dominant wave is an input wave whose dominance metric is within the tie
epsilon of every input wave's metric; a later wave whose metric is within the
epsilon of the current best never displaces it (earliest position wins ties);
and for two waves differing only in amplitude whose metric gap exceeds the
epsilon, the higher-amplitude wave is dominant at `t = 0` in either input
order. -/
theorem C1_dominance_amended :
    (∀ (w : MemoryWave) (rest : List MemoryWave) (t : ℝ) (n : Nat) (r : ℚ),
      (∀ u ∈ w :: rest, ¬ isInvalid u) →
      ∃ res, interfere (w :: rest) t n r = Except.ok res ∧
        ∃ d, res.dominant = some d ∧ d ∈ w :: rest ∧
          ∀ u ∈ w :: rest,
            dominanceMetric u t ≤ dominanceMetric d t + epsilonTie) ∧
    (∀ (w1 w2 : MemoryWave) (t : ℝ),
      dominanceMetric w2 t ≤ dominanceMetric w1 t + epsilonTie →
        dominantOf [w1, w2] t = some w1) ∧
    (∀ (base : MemoryWave) (a1 a2 : ℚ),
      epsilonTie <
          ((a2 : ℝ) - (a1 : ℝ)) * (base.emotion_type.intensity : ℝ) →
        dominantOf [{ base with amplitude := a1 },
            { base with amplitude := a2 }] 0 =
          some { base with amplitude := a2 } ∧
        dominantOf [{ base with amplitude := a2 },
            { base with amplitude := a1 }] 0 =
          some { base with amplitude := a2 }) := by
  have hm0 : ∀ (base : MemoryWave) (a : ℚ),
      dominanceMetric { base with amplitude := a } 0 =
        (a : ℝ) * (base.emotion_type.intensity : ℝ) := by
    intro base a
    simp [dominanceMetric, envelope, Real.exp_zero]
  refine ⟨fun w rest t n r hval => ?_, fun w1 w2 t h => ?_, fun base a1 a2 h => ?_⟩
  · have hv : ¬ ∃ u ∈ w :: rest, isInvalid u := by
      rintro ⟨u, hu, hinv⟩
      exact hval u hu hinv
    refine ⟨_, by rw [interfere, if_neg hv], ?_⟩
    exact ⟨pickDominant t w rest, rfl, pickDominant_mem rest w t,
      fun u hu => pickDominant_max rest w t u hu⟩
  · rw [show dominantOf [w1, w2] t = some (pickDominant t w1 [w2]) from rfl,
      pickDominant_cons]
    rw [if_neg (not_lt.mpr h)]
    rfl
  · have hgap : dominanceMetric { base with amplitude := a1 } 0 + epsilonTie <
        dominanceMetric { base with amplitude := a2 } 0 := by
      rw [hm0, hm0]
      nlinarith [h]
    constructor
    · rw [show dominantOf [{ base with amplitude := a1 },
          { base with amplitude := a2 }] 0 =
          some (pickDominant 0 { base with amplitude := a1 }
            [{ base with amplitude := a2 }]) from rfl, pickDominant_cons]
      rw [if_pos hgap]
      rfl
    · rw [show dominantOf [{ base with amplitude := a2 },
          { base with amplitude := a1 }] 0 =
          some (pickDominant 0 { base with amplitude := a2 }
            [{ base with amplitude := a1 }]) from rfl, pickDominant_cons]
      rw [if_neg]
      · rfl
      · intro hc
        have h1 : dominanceMetric { base with amplitude := a1 } 0 <
            dominanceMetric { base with amplitude := a2 } 0 :=
          lt_of_le_of_lt (le_add_of_nonneg_right epsilonTie_nonneg) hgap
        have h2 : dominanceMetric { base with amplitude := a2 } 0 <
            dominanceMetric { base with amplitude := a1 } 0 :=
          lt_of_le_of_lt (le_add_of_nonneg_right epsilonTie_nonneg) hc
        exact absurd (lt_trans h1 h2) (lt_irrefl _)

/-- C2: `interfere` fails with `InvalidWave` iff some input wave has
non-positive frequency or negative amplitude; and the call never touches the
consciousness state (it is a pure computation, so nothing is partially
mutated on the error path or any other). -/
theorem C2_invalid_wave :
    ∀ (waves : List MemoryWave) (t : ℝ) (n : Nat) (r : ℚ),
      (interfere waves t n r = Except.error WaveError.invalidWave ↔
        ∃ w ∈ waves, w.frequency ≤ 0 ∨ w.amplitude < 0) ∧
      (∀ s : ConsciousnessState,
        applyEngineOp (EngineOp.interfereOp waves t n r) s = s) := by
  intro waves t n r
  refine ⟨?_, fun s => rfl⟩
  constructor
  · intro h
    by_cases hv : ∃ w ∈ waves, isInvalid w
    · rcases hv with ⟨w, hw, hinv⟩
      exact ⟨w, hw, hinv⟩
    · rw [interfere, if_neg hv] at h
      cases h
  · rintro ⟨w, hw, hinv⟩
    rw [interfere, if_pos ⟨w, hw, hinv⟩]

/-- C8: `interfere` and the regulation gate are deterministic — identical wave
sequences, times and states produce identical results; there is no hidden
state or randomness, both being pure functions of their arguments. -/
theorem C8_determinism :
    (∀ (ws1 ws2 : List MemoryWave) (t1 t2 : ℝ) (n1 n2 : Nat) (r1 r2 : ℚ),
      ws1 = ws2 → t1 = t2 → n1 = n2 → r1 = r2 →
        interfere ws1 t1 n1 r1 = interfere ws2 t2 n2 r2) ∧
    (∀ (c1 c2 : MemoryWave) (s1 s2 : ConsciousnessState),
      c1 = c2 → s1 = s2 →
        emotionalRegulation c1 s1 = emotionalRegulation c2 s2) :=
  ⟨fun _ _ _ _ _ _ _ _ h1 h2 h3 h4 => by rw [h1, h2, h3, h4],
   fun _ _ _ _ h1 h2 => by rw [h1, h2]⟩

/-- C9: the claim fails as stated for a valid wave of amplitude 0 (the data
model allows `amplitude ≥ 0`): with `decay_rate = 1 > 0` the envelope at
`t2 = 1 > t1 = 0` is not strictly below the envelope at `t1`. -/
theorem C9_counterexample :
    0 < c9Wave.decay_rate ∧ ¬ (envelope c9Wave 1 < envelope c9Wave 0) := by
  constructor
  · norm_num [c9Wave]
  · norm_num [envelope, c9Wave]

/-- C9 (amended): for a wave with positive amplitude and positive decay rate,
the envelope `amplitude · e^(-decay_rate · t)` is strictly decreasing:
`envelope(t2) < envelope(t1)` whenever `0 ≤ t1 < t2`. -/
theorem C9_decay_monotonic_amended (w : MemoryWave) (t1 t2 : ℝ)
    (hamp : 0 < w.amplitude) (hdecay : 0 < w.decay_rate)
    (ht1 : 0 ≤ t1) (ht : t1 < t2) :
    envelope w t2 < envelope w t1 := by
  unfold envelope
  have hd : (0 : ℝ) < (w.decay_rate : ℝ) := by exact_mod_cast hdecay
  have ha : (0 : ℝ) < (w.amplitude : ℝ) := by exact_mod_cast hamp
  have hexp : Real.exp (-(w.decay_rate : ℝ) * t2) <
      Real.exp (-(w.decay_rate : ℝ) * t1) := by
    apply Real.exp_lt_exp.mpr
    nlinarith
  exact mul_lt_mul_of_pos_left hexp ha

/-- C9 witness: for the unit wave (amplitude 1, decay rate 1) the envelope at
`t = 1` is strictly below the envelope at `t = 0`. -/
theorem C9_decay_monotonic_amended_witness :
    envelope ⟨1, 440, 0, 1, EmotionType.neutral, "tick"⟩ 1 <
      envelope ⟨1, 440, 0, 1, EmotionType.neutral, "tick"⟩ 0 :=
  C9_decay_monotonic_amended ⟨1, 440, 0, 1, EmotionType.neutral, "tick"⟩ 0 1
    (by norm_num) (by norm_num) (by norm_num) (by norm_num)

/-- C10: `grow()` increments the growth stage, every other engine operation
(wake, sleep, regulation, interference, arbitration, synthesis) leaves it
unchanged, and over any sequence of engine operations the growth stage never
decreases. -/
theorem C10_growth_monotone :
    (∀ s, (applyEngineOp EngineOp.growOp s).growth_stage = s.growth_stage + 1) ∧
    (∀ op s, op ≠ EngineOp.growOp →
      (applyEngineOp op s).growth_stage = s.growth_stage) ∧
    (∀ (ops : List EngineOp) (s : ConsciousnessState),
      s.growth_stage ≤ (runOps ops s).growth_stage) := by
  have hstep : ∀ (op : EngineOp) (s : ConsciousnessState),
      s.growth_stage ≤ (applyEngineOp op s).growth_stage := by
    intro op s
    cases op with
    | growOp => exact Nat.le_succ _
    | regulateOp c =>
        show s.growth_stage ≤ ((emotionalRegulation c s).2).growth_stage
        unfold emotionalRegulation
        split <;> exact le_refl _
    | wakeOp => exact le_refl _
    | sleepOp => exact le_refl _
    | interfereOp ws t n r => exact le_refl _
    | decideOp es seed => exact le_refl _
    | synthOp txt n => exact le_refl _
  refine ⟨fun s => rfl, fun op s hop => ?_, fun ops => ?_⟩
  · cases op with
    | growOp => exact absurd rfl hop
    | regulateOp c =>
        show ((emotionalRegulation c s).2).growth_stage = s.growth_stage
        unfold emotionalRegulation
        split <;> rfl
    | wakeOp => rfl
    | sleepOp => rfl
    | interfereOp ws t n r => rfl
    | decideOp es seed => rfl
    | synthOp txt n => rfl
  · induction ops with
    | nil => intro s; exact le_refl _
    | cons op rest ih =>
        intro s
        exact le_trans (hstep op s) (ih (applyEngineOp op s))

theorem splitSentencesAux_flatten :
    ∀ (cs acc : List Char),
      (splitSentencesAux acc cs).flatten = acc.reverse ++ cs := by
  intro cs
  induction cs with
  | nil =>
      intro acc
      unfold splitSentencesAux
      by_cases h : acc.isEmpty
      · rw [if_pos h, List.isEmpty_iff.mp h]
        rfl
      · rw [if_neg h]
        simp
  | cons c rest ih =>
      intro acc
      unfold splitSentencesAux
      by_cases h : isSentenceBoundary c
      · rw [if_pos h]
        rw [List.flatten_cons, ih []]
        simp
      · rw [if_neg h]
        rw [ih (c :: acc)]
        simp

theorem countTokensAux_cons_space (inWord : Bool) (c : Char) (l : List Char)
    (h : c = ' ') : countTokensAux inWord (c :: l) = countTokensAux false l := by
  simp only [countTokensAux]
  rw [if_pos h]

theorem countTokensAux_cons_word_in (c : Char) (l : List Char)
    (h : ¬ c = ' ') : countTokensAux true (c :: l) = countTokensAux true l := by
  simp only [countTokensAux]
  rw [if_neg h]
  simp

theorem countTokensAux_cons_word_out (c : Char) (l : List Char)
    (h : ¬ c = ' ') :
    countTokensAux false (c :: l) = 1 + countTokensAux true l := by
  simp only [countTokensAux]
  rw [if_neg h]
  simp

theorem takeTokensAux_append :
    ∀ (cs : List Char) (n : Nat) (inWord : Bool),
      (takeTokensAux n inWord cs).1 ++ (takeTokensAux n inWord cs).2 = cs := by
  intro cs
  induction cs with
  | nil => intro n inWord; rfl
  | cons c rest ih =>
      intro n inWord
      unfold takeTokensAux
      by_cases hsp : c = ' '
      · rw [if_pos hsp]
        simp only [List.cons_append]
        rw [ih n false]
      · rw [if_neg hsp]
        cases inWord with
        | true =>
            rw [if_pos rfl]
            simp only [List.cons_append]
            rw [ih n true]
        | false =>
            rw [if_neg (fun hh => nomatch hh)]
            cases n with
            | zero => rfl
            | succ m =>
                simp only [List.cons_append]
                rw [ih m true]

theorem takeTokensAux_count :
    ∀ (cs : List Char) (n : Nat) (inWord : Bool),
      countTokensAux inWord (takeTokensAux n inWord cs).1 ≤ n := by
  intro cs
  induction cs with
  | nil => intro n inWord; exact Nat.zero_le n
  | cons c rest ih =>
      intro n inWord
      unfold takeTokensAux
      by_cases hsp : c = ' '
      · rw [if_pos hsp]
        rw [countTokensAux_cons_space _ _ _ hsp]
        exact ih n false
      · rw [if_neg hsp]
        cases inWord with
        | true =>
            rw [if_pos rfl]
            rw [countTokensAux_cons_word_in _ _ hsp]
            exact ih n true
        | false =>
            rw [if_neg (fun hh => nomatch hh)]
            cases n with
            | zero => exact Nat.le_refl 0
            | succ m =>
                rw [countTokensAux_cons_word_out _ _ hsp]
                have hh := ih m true
                omega

theorem takeTokensAux_ne_nil (c : Char) (rest : List Char) (n : Nat)
    (h : 1 ≤ n) : (takeTokensAux n false (c :: rest)).1 ≠ [] := by
  unfold takeTokensAux
  by_cases hsp : c = ' '
  · rw [if_pos hsp]
    exact List.cons_ne_nil _ _
  · rw [if_neg hsp, if_neg (fun hh => nomatch hh)]
    cases n with
    | zero => exact absurd h (by omega)
    | succ m => exact List.cons_ne_nil _ _

theorem takeTokensAux_length (cs : List Char) (n : Nat) (inWord : Bool) :
    (takeTokensAux n inWord cs).1.length + (takeTokensAux n inWord cs).2.length =
      cs.length := by
  have h := takeTokensAux_append cs n inWord
  calc (takeTokensAux n inWord cs).1.length +
        (takeTokensAux n inWord cs).2.length
      = ((takeTokensAux n inWord cs).1 ++ (takeTokensAux n inWord cs).2).length := by
        rw [List.length_append]
    _ = cs.length := by rw [h]

theorem hardSplitAux_flatten (m : Nat) :
    ∀ (fuel : Nat) (cs : List Char), (hardSplitAux m fuel cs).flatten = cs := by
  intro fuel
  induction fuel with
  | zero =>
      intro cs
      cases cs with
      | nil => rfl
      | cons c rest => simp [hardSplitAux]
  | succ fuel ih =>
      intro cs
      cases cs with
      | nil => rfl
      | cons c rest =>
          unfold hardSplitAux
          by_cases he : (takeTokensAux m false (c :: rest)).1.isEmpty
          · rw [if_pos he]
            simp
          · rw [if_neg he]
            rw [List.flatten_cons, ih _]
            exact takeTokensAux_append (c :: rest) m false

theorem hardSplitAux_count (m : Nat) (hm : 1 ≤ m) :
    ∀ (fuel : Nat) (cs : List Char), cs.length ≤ fuel →
      ∀ q ∈ hardSplitAux m fuel cs, countTokens q ≤ m := by
  intro fuel
  induction fuel with
  | zero =>
      intro cs hlen q hq
      cases cs with
      | nil => simp [hardSplitAux] at hq
      | cons c rest => simp at hlen
  | succ fuel ih =>
      intro cs hlen q hq
      cases cs with
      | nil => simp [hardSplitAux] at hq
      | cons c rest =>
          unfold hardSplitAux at hq
          have hne := takeTokensAux_ne_nil c rest m hm
          rw [if_neg (fun hh => hne (List.isEmpty_iff.mp hh))] at hq
          rcases List.mem_cons.mp hq with h | h
          · rw [h]
            exact takeTokensAux_count (c :: rest) m false
          · have hL := takeTokensAux_length (c :: rest) m false
            have hp : 1 ≤ (takeTokensAux m false (c :: rest)).1.length :=
              List.length_pos.mpr hne
            have hr : (takeTokensAux m false (c :: rest)).2.length ≤ fuel := by
              simp only [List.length_cons] at hlen hL
              omega
            exact ih _ hr q h

theorem mkChunksAux_texts :
    ∀ (pieces : List (List Char)) (i : Nat),
      (mkChunksAux i pieces).map (fun c => c.text) = pieces := by
  intro pieces
  induction pieces with
  | nil => intro i; rfl
  | cons p rest ih =>
      intro i
      simp [mkChunksAux, mkChunk, ih]

theorem mkChunksAux_token :
    ∀ (pieces : List (List Char)) (i : Nat), ∀ c ∈ mkChunksAux i pieces,
      ∃ q ∈ pieces, c.token_count = countTokens q := by
  intro pieces
  induction pieces with
  | nil => intro i c hc; simp [mkChunksAux] at hc
  | cons p rest ih =>
      intro i c hc
      rcases List.mem_cons.mp hc with h | h
      · exact ⟨p, List.mem_cons_self _ _, by rw [h]; rfl⟩
      · rcases ih (i + 1) c h with ⟨q, hq, he⟩
        exact ⟨q, List.mem_cons_of_mem _ hq, he⟩

theorem mkChunksAux_indices :
    ∀ (pieces : List (List Char)) (i : Nat),
      (mkChunksAux i pieces).map (fun c => c.sequence_index) =
        List.range' i pieces.length := by
  intro pieces
  induction pieces with
  | nil => intro i; rfl
  | cons p rest ih =>
      intro i
      simp only [mkChunksAux, List.map_cons, List.length_cons, List.range'_succ]
      rw [ih (i + 1)]
      rfl

theorem piecesFlatten (m : Nat) :
    ∀ (l : List (List Char)),
      ((l.map (fun s =>
        if m < countTokens s then hardSplit m s else [s])).flatten).flatten =
        l.flatten := by
  intro l
  induction l with
  | nil => rfl
  | cons s rest ih =>
      simp only [List.map_cons, List.flatten_cons, List.flatten_append]
      rw [ih]
      by_cases hc : m < countTokens s
      · rw [if_pos hc,
          show (hardSplit m s).flatten = s from hardSplitAux_flatten m s.length s]
      · rw [if_neg hc]
        simp

theorem piecesCount (m : Nat) (hm : 1 ≤ m) (l : List (List Char)) :
    ∀ q ∈ (l.map (fun s =>
        if m < countTokens s then hardSplit m s else [s])).flatten,
      countTokens q ≤ m := by
  intro q hq
  rcases List.mem_flatten.mp hq with ⟨x, hx, hqx⟩
  rcases List.mem_map.mp hx with ⟨s, hs, rfl⟩
  by_cases hc : m < countTokens s
  · rw [if_pos hc] at hqx
    exact hardSplitAux_count m hm s.length s (le_refl _) q hqx
  · rw [if_neg hc] at hqx
    rw [List.mem_singleton.mp hqx]
    exact not_lt.mp hc

/-- C3 (amended): concatenating the chunk texts in order reconstructs the
input exactly; the chunks carry consecutive sequence indices 0, 1, ...; below
the short-text character threshold the whole text is a single chunk (the
bypass); and — for every token budget of at least 1 — outside the bypass every
chunk's token count stays within the budget. -/
theorem C3_segmentation_amended :
    (∀ (text : List Char) (m : Nat),
      ((segment text m).map (fun c => c.text)).flatten = text) ∧
    (∀ (text : List Char) (m : Nat),
      (segment text m).map (fun c => c.sequence_index) =
        List.range (segment text m).length) ∧
    (∀ (text : List Char) (m : Nat), text.length < shortTextThreshold →
      segment text m = [mkChunk text 0]) ∧
    (∀ (text : List Char) (m : Nat), 1 ≤ m →
      ¬ text.length < shortTextThreshold →
      ∀ c ∈ segment text m, c.token_count ≤ m) := by
  have hflat : ∀ (text : List Char) (m : Nat),
      ((segment text m).map (fun c => c.text)).flatten = text := by
    intro text m
    unfold segment
    by_cases h1 : text.length < shortTextThreshold
    · rw [if_pos h1]
      simp [mkChunk]
    · rw [if_neg h1]
      by_cases h2 : countTokens text ≤ m
      · rw [if_pos h2]
        simp [mkChunk]
      · rw [if_neg h2]
        show ((mkChunksAux 0 _).map (fun c => c.text)).flatten = text
        rw [mkChunksAux_texts]
        rw [piecesFlatten m (splitSentences text)]
        simpa using splitSentencesAux_flatten text []
  refine ⟨hflat, ?_, ?_, ?_⟩
  · intro text m
    unfold segment
    by_cases h1 : text.length < shortTextThreshold
    · rw [if_pos h1]
      rfl
    · rw [if_neg h1]
      by_cases h2 : countTokens text ≤ m
      · rw [if_pos h2]
        rfl
      · rw [if_neg h2]
        show (mkChunksAux 0 _).map (fun c => c.sequence_index) = _
        rw [mkChunksAux_indices]
        have hlen : (mkChunksAux 0 (((splitSentences text).map (fun s =>
            if m < countTokens s then hardSplit m s else [s])).flatten)).length =
            (((splitSentences text).map (fun s =>
              if m < countTokens s then hardSplit m s else [s])).flatten).length := by
          have := congrArg List.length (mkChunksAux_texts
            ((((splitSentences text).map (fun s =>
              if m < countTokens s then hardSplit m s else [s])).flatten)) 0)
          rwa [List.length_map] at this
        show List.range' 0 _ = List.range (mkChunksAux 0 _).length
        rw [hlen, List.range_eq_range']
  · intro text m h1
    unfold segment
    rw [if_pos h1]
  · intro text m hm h1 c hc
    unfold segment at hc
    rw [if_neg h1] at hc
    by_cases h2 : countTokens text ≤ m
    · rw [if_pos h2] at hc
      rw [List.mem_singleton.mp hc]
      exact h2
    · rw [if_neg h2] at hc
      rcases mkChunksAux_token _ 0 c hc with ⟨q, hq, he⟩
      rw [he]
      exact piecesCount m hm _ q hq

/-- C3: the claim fails as stated for a token budget of 0: fifty characters of
one unbroken word (so no short-text bypass, the input being at the threshold)
cannot be split to token count ≤ 0 — the emitted chunk holds one token. -/
theorem C3_counterexample :
    ¬ (List.replicate 50 'a').length < shortTextThreshold ∧
    ∃ c ∈ segment (List.replicate 50 'a') 0, 0 < c.token_count := by
  decide

end Kokoro

